import Mathlib

/-!
Verification of the sort-json key-ordering engine, comment stripper and
configuration resolver, shallowly embedded from the TypeScript sources
(src/sort.ts, the schema module, and the configuration module).
-/

namespace SortJson

/-- JSON values, as produced by a standard JSON parser.  Numbers are modelled
as integers; none of the verified components inspects numeric values, so the
restriction is harmless. -/
inductive Json where
  | null
  | bool (b : Bool)
  | num (n : Int)
  | str (s : String)
  | arr (elements : List Json)
  | obj (fields : List (String × Json))

/-- Primary collation weight of a character: ASCII uppercase letters are
folded onto the corresponding lowercase letters; the shift by one keeps every
primary weight positive, below the level separator 0 used in `collationKey`. -/
def primaryWeight (c : Char) : Nat :=
  if 65 ≤ c.toNat ∧ c.toNat ≤ 90 then c.toNat + 32 + 1 else c.toNat + 1

/-- Case (tertiary) collation weight of a character: lowercase before
uppercase, as in the ICU default collation. -/
def caseWeight (c : Char) : Nat :=
  if 65 ≤ c.toNat ∧ c.toNat ≤ 90 then 2 else 1

/-- Collation sort key of a string: all primary weights, a level separator,
then all case weights.  Comparing keys lexicographically compares the whole
primary level first and the case level only on primary ties. -/
def collationKey (s : String) : List Nat :=
  s.data.map primaryWeight ++ 0 :: s.data.map caseWeight

/-- Lexicographic comparison of weight lists. -/
def lexCompare : List Nat → List Nat → Ordering
  | [], [] => .eq
  | [], _ :: _ => .lt
  | _ :: _, [] => .gt
  | a :: as, b :: bs =>
    match compare a b with
    | .eq => lexCompare as bs
    | o => o

/-- Model of the JavaScript host function `String.prototype.localeCompare`
under the default locale (the ICU root collation), restricted to ASCII
strings: at the primary level characters compare case-insensitively and a
string precedes its proper extensions, at the tertiary level lowercase
precedes uppercase.  This is the comparator the source calls in `sortKeys`,
`sortKeysFromDepth` and `sortEntriesWithCustomOrder`. -/
def localeCompare (a b : String) : Int :=
  match lexCompare (collationKey a) (collationKey b) with
  | .lt => -1
  | .eq => 0
  | .gt => 1

/-- Ordinal (code-point) comparison of strings, the comparator named by the
specification for default key sorting.  Used only to state spec-side claims,
never as part of the embedding of the source. -/
def ordCompare (a b : String) : Int :=
  match lexCompare (a.data.map Char.toNat) (b.data.map Char.toNat) with
  | .lt => -1
  | .eq => 0
  | .gt => 1

/-- Model of `Array.prototype.sort` with a numeric comparator: ECMAScript
requires the sort to be stable and, for a consistent comparator, to order the
elements so that earlier elements compare at most 0 against later ones.  Any
stable sorting algorithm realises this; we use insertion sort. -/
def jsSort (cmp : α → α → Int) (l : List α) : List α :=
  l.insertionSort fun a b => cmp a b ≤ 0

/-- Comparator used on object entries: `([a], [b]) => a.localeCompare(b)`. -/
def keyCmp (a b : String × Json) : Int := localeCompare a.1 b.1

/-- Embedding of `sortKeys` from src/sort.ts: arrays map recursively, objects
sort their entries with `localeCompare` on keys and recurse into values,
primitives are returned as they are. -/
def sortKeys : Json → Json
  | .null => .null
  | .bool b => .bool b
  | .num n => .num n
  | .str s => .str s
  | .arr vs => .arr (vs.attach.map fun x => sortKeys x.1)
  | .obj fs => .obj ((jsSort keyCmp fs).attach.map fun x => (x.1.1, sortKeys x.1.2))
decreasing_by
  · have := List.sizeOf_lt_of_mem x.2
    simp only [Json.arr.sizeOf_spec]
    omega
  · have hm : x.1 ∈ fs := by
      have := x.2
      simpa [jsSort, List.mem_insertionSort] using this
    have h1 := List.sizeOf_lt_of_mem hm
    have h2 : sizeOf x.1 = 1 + sizeOf x.1.1 + sizeOf x.1.2 := by
      rcases x.1 with ⟨k, v⟩
      simp
    simp only [Json.obj.sizeOf_spec]
    omega

/-- Options record of `sortKeysFromDepth`; the legacy plain-number signature
corresponds to `sortOrder = none`. -/
structure SortOptions where
  sortFrom : Nat
  sortOrder : Option (List String)

/-- Embedding of the `orderMap` lookup in `sortEntriesWithCustomOrder`:
`new Map(sortOrder.map((key, index) => [key, index])).get(key)`.  When a key
occurs several times in `sortOrder` the Map keeps the last index. -/
def orderIndex (sortOrder : List String) (key : String) : Option Nat :=
  (sortOrder.enum.reverse.find? fun p => p.2 == key).map fun p => p.1

/-- The comparator of `sortEntriesWithCustomOrder`: keys listed in
`sortOrder` compare by their index and precede unlisted keys; two unlisted
keys fall back to `localeCompare`. -/
def customCompare (sortOrder : List String) (a b : String) : Int :=
  match orderIndex sortOrder a, orderIndex sortOrder b with
  | some ai, some bi => (ai : Int) - bi
  | some _, none => -1
  | none, some _ => 1
  | none, none => localeCompare a b

/-- Embedding of `sortEntriesWithCustomOrder` from src/sort.ts. -/
def sortEntriesWithCustomOrder (entries : List (String × Json))
    (sortOrder : List String) : List (String × Json) :=
  jsSort (fun a b => customCompare sortOrder a.1 b.1) entries

/-- The entry processing step of `sortKeysFromDepth` on one object: custom
order at depth 0 when a non-empty `sortOrder` is supplied, the default
comparator at any other qualifying depth, entries untouched below
`sortFrom`. -/
def processEntries (opts : SortOptions) (currentDepth : Nat)
    (entries : List (String × Json)) : List (String × Json) :=
  if opts.sortFrom ≤ currentDepth then
    if currentDepth = 0 ∧ opts.sortOrder.getD [] ≠ [] then
      sortEntriesWithCustomOrder entries (opts.sortOrder.getD [])
    else
      jsSort keyCmp entries
  else
    entries

theorem mem_of_mem_processEntries {opts : SortOptions} {d : Nat}
    {entries : List (String × Json)} {kv : String × Json}
    (h : kv ∈ processEntries opts d entries) : kv ∈ entries := by
  unfold processEntries at h
  split at h
  · split at h
    · simpa [sortEntriesWithCustomOrder, jsSort, List.mem_insertionSort] using h
    · simpa [jsSort, List.mem_insertionSort] using h
  · exact h

/-- Embedding of `sortKeysFromDepth` from src/sort.ts.  Arrays recurse at the
same depth and discard `sortOrder`; objects process their entries through
`processEntries` and recurse into values at depth + 1, also discarding
`sortOrder`; primitives are returned as they are. -/
def sortKeysFromDepth : Json → SortOptions → Nat → Json
  | .null, _, _ => .null
  | .bool b, _, _ => .bool b
  | .num n, _, _ => .num n
  | .str s, _, _ => .str s
  | .arr vs, opts, currentDepth =>
    .arr (vs.attach.map fun x =>
      sortKeysFromDepth x.1 ⟨opts.sortFrom, none⟩ currentDepth)
  | .obj entries, opts, currentDepth =>
    .obj ((processEntries opts currentDepth entries).attach.map fun x =>
      (x.1.1, sortKeysFromDepth x.1.2 ⟨opts.sortFrom, none⟩ (currentDepth + 1)))
termination_by v _ _ => sizeOf v
decreasing_by
  · have := List.sizeOf_lt_of_mem x.2
    simp only [Json.arr.sizeOf_spec]
    omega
  · have hm : x.1 ∈ entries := mem_of_mem_processEntries x.2
    have h1 := List.sizeOf_lt_of_mem hm
    have h2 : sizeOf x.1 = 1 + sizeOf x.1.1 + sizeOf x.1.2 := by
      rcases x.1 with ⟨k, v⟩
      simp
    simp only [Json.obj.sizeOf_spec]
    omega

theorem sortKeys_arr (vs : List Json) :
    sortKeys (.arr vs) = .arr (vs.map sortKeys) := by
  rw [sortKeys]
  exact congrArg Json.arr (List.attach_map_val vs sortKeys)

theorem sortKeys_obj (fs : List (String × Json)) :
    sortKeys (.obj fs) =
      .obj ((jsSort keyCmp fs).map fun kv => (kv.1, sortKeys kv.2)) := by
  rw [sortKeys]
  exact congrArg Json.obj
    (List.attach_map_val (jsSort keyCmp fs) fun kv => (kv.1, sortKeys kv.2))

theorem sortKeysFromDepth_arr (vs : List Json) (opts : SortOptions) (d : Nat) :
    sortKeysFromDepth (.arr vs) opts d =
      .arr (vs.map fun v => sortKeysFromDepth v ⟨opts.sortFrom, none⟩ d) := by
  rw [sortKeysFromDepth.eq_def]
  exact congrArg Json.arr
    (List.attach_map_val vs fun v => sortKeysFromDepth v ⟨opts.sortFrom, none⟩ d)

theorem sortKeysFromDepth_obj (entries : List (String × Json))
    (opts : SortOptions) (d : Nat) :
    sortKeysFromDepth (.obj entries) opts d =
      .obj ((processEntries opts d entries).map fun kv =>
        (kv.1, sortKeysFromDepth kv.2 ⟨opts.sortFrom, none⟩ (d + 1))) := by
  rw [sortKeysFromDepth.eq_def]
  exact congrArg Json.obj
    (List.attach_map_val (processEntries opts d entries) fun kv =>
      (kv.1, sortKeysFromDepth kv.2 ⟨opts.sortFrom, none⟩ (d + 1)))

/-- Embedding of the inner block-comment loop of `stripComments`: the
JavaScript loop runs `while (i < content.length - 1)`, advancing until it
consumes a closing `*/` (returning the text after it) or until at most one
character remains (returning that remainder unconsumed, to be processed by
the outer loop). -/
def blockSkip : List Char → List Char
  | '*' :: '/' :: rest => rest
  | _ :: c :: rest => blockSkip (c :: rest)
  | l => l

/-- Embedding of the scanning loop of `stripComments` from src/sort.ts.  The
fuel argument counts loop iterations; every step consumes at least one
character, so fuel equal to the input length never runs out.  The two Bool
arguments are the `inString` and `escaped` flags. -/
def stripAux : Nat → List Char → Bool → Bool → List Char
  | 0, _, _, _ => []
  | _ + 1, [], _, _ => []
  | fuel + 1, c :: rest, true, escaped =>
    c :: (if escaped then stripAux fuel rest true false
      else if c = '\\' then stripAux fuel rest true true
      else if c = '"' then stripAux fuel rest false false
      else stripAux fuel rest true false)
  | fuel + 1, '"' :: rest, false, e => '"' :: stripAux fuel rest true e
  | fuel + 1, '/' :: '/' :: rest, false, e =>
    stripAux fuel (('/' :: '/' :: rest).dropWhile fun c => c ≠ '\n') false e
  | fuel + 1, '/' :: '*' :: rest, false, e => stripAux fuel (blockSkip rest) false e
  | fuel + 1, c :: rest, false, e => c :: stripAux fuel rest false e

/-- Embedding of `stripComments` from src/sort.ts. -/
def stripComments (content : String) : String :=
  String.mk (stripAux content.data.length content.data false false)

/-- Tokens of the regular expression that `matchesPattern` compiles a glob
pattern to: a literal character, `*` compiled to `[^/]*`, and `**` compiled
to `.*`.  Characters other than `.` and `*` are not escaped by the source;
the model treats them as literals, which is exact for patterns made of
letters, digits, `.`, `/`, `-`, `_` and `*`. -/
inductive GlobTok where
  | lit (c : Char)
  | star
  | globstar

/-- Tokenization of a glob pattern, mirroring the chained replacements in
`matchesPattern`: the `**` replacement scans left to right without overlap,
then remaining single `*` are replaced, and `.` is escaped to a literal. -/
def globToks : List Char → List GlobTok
  | '*' :: '*' :: rest => .globstar :: globToks rest
  | '*' :: rest => .star :: globToks rest
  | c :: rest => .lit c :: globToks rest
  | [] => []

/-- Anchored matching of a token list against a path, with the semantics of
the compiled regular expression: `[^/]*` matches any slash-free prefix and
`.*` matches any prefix. -/
def tokMatch : List GlobTok → List Char → Bool
  | [], cs => cs.isEmpty
  | .lit _ :: _, [] => false
  | .lit c :: ts, d :: ds => c == d && tokMatch ts ds
  | .star :: ts, cs =>
    (List.range (cs.length + 1)).any fun i =>
      ((cs.take i).all fun d => !(d == '/')) && tokMatch ts (cs.drop i)
  | .globstar :: ts, cs =>
    (List.range (cs.length + 1)).any fun i => tokMatch ts (cs.drop i)

/-- Embedding of `matchesPattern` from the configuration module: an exact
string match short-circuits; otherwise the pattern is compiled to an
anchored regular expression, and when the compiled pattern starts with
`.*/` (exactly when the glob starts with `**/`) that prefix is wrapped as
`(.*/)?`, so it also matches the zero-segment case. -/
def matchesPattern (filePath pattern : String) : Bool :=
  if filePath = pattern then true
  else
    match globToks pattern.data with
    | .globstar :: .lit '/' :: ts =>
      tokMatch ts filePath.data || tokMatch (.globstar :: .lit '/' :: ts) filePath.data
    | toks => tokMatch toks filePath.data

/-- Count of non-overlapping occurrences of `**`, as counted by the global
regular expression match in `getPatternSpecificity`. -/
def countDoubleStar : List Char → Nat
  | '*' :: '*' :: rest => countDoubleStar rest + 1
  | _ :: rest => countDoubleStar rest
  | [] => 0

/-- Embedding of `getPatternSpecificity` from the configuration module. -/
def getPatternSpecificity (pattern : String) : Int :=
  let noStarBonus : Int := if pattern.data.all (fun c => !(c == '*')) then 1000 else 0
  let slashCount : Int := ((pattern.data.filter fun c => c == '/').length : Int)
  let doubleStarCount : Int := (countDoubleStar pattern.data : Int)
  let singleStarCount : Int :=
    ((pattern.data.filter fun c => c == '*').length : Int) - 2 * doubleStarCount
  noStarBonus + 10 * slashCount - 5 * doubleStarCount + singleStarCount +
    (pattern.length : Int)

/-- Per-pattern override record, with the fields that `getFileConfig` reads
from a `files` entry (`sortFrom`, `ignore`, `sortOrder`). -/
structure FileConfig where
  sortFrom : Option Nat
  ignore : Option Bool
  sortOrder : Option (List String)
deriving DecidableEq

/-- Resolved configuration.  The fields named `include` and `ignore` in the
source are embedded as `includePatterns` and `ignorePatterns`. -/
structure Config where
  includePatterns : List String
  ignorePatterns : List String
  sortFrom : Nat
  files : List (String × FileConfig)
deriving DecidableEq

def DEFAULT_CONFIG : Config :=
  ⟨["**/*.json"], [], 1, []⟩

def isStr : Json → Bool
  | .str _ => true
  | _ => false

def isStringArray : Json → Bool
  | .arr vs => vs.all isStr
  | _ => false

def isNonNegInt : Json → Bool
  | .num n => decide (0 ≤ n)
  | _ => false

def isBoolVal : Json → Bool
  | .bool _ => true
  | _ => false

/-- Embedding of the TypeBox `FileConfigSchema`: an object whose only
permitted fields are an integer `sortFrom` with minimum 0 and a boolean
`ignore`; `additionalProperties` is false, so any other field fails. -/
def checkFileConfig : Json → Bool
  | .obj fields => fields.all fun kv =>
      if kv.1 = "sortFrom" then isNonNegInt kv.2
      else if kv.1 = "ignore" then isBoolVal kv.2
      else false
  | _ => false

def checkFilesRecord : Json → Bool
  | .obj entries => entries.all fun kv => checkFileConfig kv.2
  | _ => false

/-- Embedding of the TypeBox `ConfigSchema`: an object with optional fields
`$schema` (string), `include` and `ignore` (arrays of strings), `sortFrom`
(integer with minimum 0) and `files` (a record of `FileConfigSchema`
values); `additionalProperties` is false, so any unrecognized top-level
field fails validation. -/
def checkConfig : Json → Bool
  | .obj fields => fields.all fun kv =>
      if kv.1 = "$schema" then isStr kv.2
      else if kv.1 = "include" then isStringArray kv.2
      else if kv.1 = "ignore" then isStringArray kv.2
      else if kv.1 = "sortFrom" then isNonNegInt kv.2
      else if kv.1 = "files" then checkFilesRecord kv.2
      else false
  | _ => false

/-- Property access on a parsed JSON object; with duplicate keys
`JSON.parse` keeps the last occurrence. -/
def getField (fields : List (String × Json)) (key : String) : Option Json :=
  (fields.reverse.find? fun kv => kv.1 == key).map fun kv => kv.2

def asStringList : Json → List String
  | .arr vs => vs.filterMap fun v =>
      match v with
      | .str s => some s
      | _ => none
  | _ => []

/-- The fields of one `files` entry as `getFileConfig` reads them off the
parsed object, including the untyped `sortOrder` property access. -/
def parseFileConfig : Json → FileConfig
  | .obj fields =>
    ⟨(getField fields "sortFrom").bind fun v =>
        match v with
        | .num n => some n.toNat
        | _ => none,
      (getField fields "ignore").bind fun v =>
        match v with
        | .bool b => some b
        | _ => none,
      (getField fields "sortOrder").bind fun v =>
        match v with
        | .arr vs => some (vs.filterMap fun w =>
            match w with
            | .str s => some s
            | _ => none)
        | _ => none⟩
  | _ => ⟨none, none, none⟩

/-- Embedding of `mergeWithDefaults`: fields present in the loaded document
override the defaults. -/
def mergeWithDefaults (j : Json) : Config :=
  match j with
  | .obj fields =>
    { includePatterns :=
        match getField fields "include" with
        | some v => asStringList v
        | none => DEFAULT_CONFIG.includePatterns
      ignorePatterns :=
        match getField fields "ignore" with
        | some v => asStringList v
        | none => []
      sortFrom :=
        match getField fields "sortFrom" with
        | some (.num n) => n.toNat
        | _ => DEFAULT_CONFIG.sortFrom
      files :=
        match getField fields "files" with
        | some (.obj entries) => entries.map fun kv => (kv.1, parseFileConfig kv.2)
        | _ => [] }
  | _ => DEFAULT_CONFIG

/-- Outcome of reading and JSON-parsing one candidate configuration file:
the file is missing, it exists but its text is not valid JSON, or it parses
to a JSON document. -/
inductive ReadResult where
  | missing
  | unparseable
  | parsed (j : Json)

def CONFIG_FILE_NAMES : List String :=
  [".sortjsonrc.json", ".sortjsonrc", "sortjson.config.json"]

/-- Embedding of the candidate loop of `loadConfig`: a missing or unparseable
candidate falls through to the next one, a candidate that parses but fails
schema validation raises `ConfigValidationError` (modelled as `.error` with
the file name), and when no candidate succeeds the defaults are returned. -/
def loadConfigFrom (env : String → ReadResult) : List String → Except String Config
  | [] => .ok DEFAULT_CONFIG
  | fileName :: rest =>
    match env fileName with
    | .parsed j => if checkConfig j then .ok (mergeWithDefaults j) else .error fileName
    | _ => loadConfigFrom env rest

/-- Embedding of `loadConfig`, over an environment assigning each file name
its read outcome. -/
def loadConfig (env : String → ReadResult) : Except String Config :=
  loadConfigFrom env CONFIG_FILE_NAMES

/-- Result record of `getFileConfig`. -/
structure FileConfigResult where
  sortFrom : Nat
  ignore : Bool
  sortOrder : Option (List String)
  matchedPattern : Option String
deriving DecidableEq

/-- One matching `files` entry together with its specificity score. -/
structure ScoredMatch where
  pattern : String
  config : FileConfig
  score : Int
deriving DecidableEq

/-- The matching `files` entries for a path, with their specificity scores,
in declaration order: the `matches` array built by `getFileConfig`. -/
def scoredMatches (filePath : String) (config : Config) : List ScoredMatch :=
  (config.files.filter fun pc => matchesPattern filePath pc.1).map fun pc =>
    ⟨pc.1, pc.2, getPatternSpecificity pc.1⟩

/-- Embedding of `getFileConfig` from the configuration module: collect all
`files` patterns matching the path with their specificity scores, sort them
by descending score, and resolve from the best match; with no match the base
configuration applies. -/
def getFileConfig (filePath : String) (config : Config) : FileConfigResult :=
  match jsSort (fun a b => b.score - a.score) (scoredMatches filePath config) with
  | [] => ⟨config.sortFrom, false, none, none⟩
  | best :: _ =>
    ⟨best.config.sortFrom.getD config.sortFrom, best.config.ignore.getD false,
      best.config.sortOrder, some best.pattern⟩

/-- The key sequence of a JSON mapping. -/
def keysOf : Json → List String
  | .obj fields => fields.map Prod.fst
  | _ => []

theorem lexCompare_eq_iff (as : List Nat) : ∀ bs, lexCompare as bs = .eq ↔ as = bs := by
  induction as with
  | nil =>
    intro bs
    cases bs with
    | nil => simp [lexCompare]
    | cons b bs => simp [lexCompare]
  | cons a as ih =>
    intro bs
    cases bs with
    | nil => simp [lexCompare]
    | cons b bs =>
      simp only [lexCompare, List.cons.injEq]
      rcases Nat.lt_trichotomy a b with h | h | h
      · rw [Nat.compare_eq_lt.mpr h]
        constructor
        · intro hc
          simp at hc
        · rintro ⟨rfl, -⟩
          omega
      · subst h
        rw [Nat.compare_eq_eq.mpr rfl, ih bs]
        constructor
        · intro hc
          exact ⟨rfl, hc⟩
        · rintro ⟨-, hc⟩
          exact hc
      · rw [Nat.compare_eq_gt.mpr h]
        constructor
        · intro hc
          simp at hc
        · rintro ⟨rfl, -⟩
          omega

theorem lexCompare_trans (as : List Nat) : ∀ bs cs,
    lexCompare as bs ≠ .gt → lexCompare bs cs ≠ .gt → lexCompare as cs ≠ .gt := by
  induction as with
  | nil =>
    intro bs cs h1 h2
    cases cs <;> simp [lexCompare]
  | cons a as ih =>
    intro bs cs h1 h2
    cases bs with
    | nil =>
      simp [lexCompare] at h1
    | cons b bs =>
      cases cs with
      | nil =>
        simp [lexCompare] at h2
      | cons c cs =>
        simp only [lexCompare] at h1 h2 ⊢
        rcases Nat.lt_trichotomy a b with hab | hab | hab
        · rw [Nat.compare_eq_lt.mpr hab] at h1
          rcases Nat.lt_trichotomy b c with hbc | hbc | hbc
          · rw [Nat.compare_eq_lt.mpr (Nat.lt_trans hab hbc)]
            simp
          · subst hbc
            rw [Nat.compare_eq_lt.mpr hab]
            simp
          · rw [Nat.compare_eq_gt.mpr hbc] at h2
            exact absurd rfl h2
        · subst hab
          rcases Nat.lt_trichotomy a c with hbc | hbc | hbc
          · rw [Nat.compare_eq_lt.mpr hbc]
            simp
          · subst hbc
            rw [Nat.compare_eq_eq.mpr rfl] at h1 h2 ⊢
            exact ih bs cs h1 h2
          · rw [Nat.compare_eq_gt.mpr hbc] at h2
            exact absurd rfl h2
        · rw [Nat.compare_eq_gt.mpr hab] at h1
          exact absurd rfl h1

theorem lexCompare_total (as : List Nat) : ∀ bs,
    lexCompare as bs ≠ .gt ∨ lexCompare bs as ≠ .gt := by
  induction as with
  | nil =>
    intro bs
    cases bs <;> simp [lexCompare]
  | cons a as ih =>
    intro bs
    cases bs with
    | nil => simp [lexCompare]
    | cons b bs =>
      simp only [lexCompare]
      rcases Nat.lt_trichotomy a b with h | h | h
      · left
        rw [Nat.compare_eq_lt.mpr h]
        simp
      · subst h
        rw [Nat.compare_eq_eq.mpr rfl]
        exact ih bs
      · right
        rw [Nat.compare_eq_lt.mpr h]
        simp

theorem lexCompare_antisymm (as : List Nat) : ∀ bs,
    lexCompare as bs ≠ .gt → lexCompare bs as ≠ .gt → as = bs := by
  induction as with
  | nil =>
    intro bs h1 h2
    cases bs with
    | nil => rfl
    | cons b bs => simp [lexCompare] at h2
  | cons a as ih =>
    intro bs h1 h2
    cases bs with
    | nil => simp [lexCompare] at h1
    | cons b bs =>
      simp only [lexCompare] at h1 h2
      rcases Nat.lt_trichotomy a b with h | h | h
      · rw [Nat.compare_eq_gt.mpr h] at h2
        exact absurd rfl h2
      · subst h
        rw [Nat.compare_eq_eq.mpr rfl] at h1 h2
        rw [ih bs h1 h2]
      · rw [Nat.compare_eq_gt.mpr h] at h1
        exact absurd rfl h1

theorem localeCompare_le_iff {a b : String} :
    localeCompare a b ≤ 0 ↔ lexCompare (collationKey a) (collationKey b) ≠ .gt := by
  unfold localeCompare
  cases h : lexCompare (collationKey a) (collationKey b) <;> decide

theorem localeCompare_le_trans {a b c : String} (h1 : localeCompare a b ≤ 0)
    (h2 : localeCompare b c ≤ 0) : localeCompare a c ≤ 0 :=
  localeCompare_le_iff.mpr
    (lexCompare_trans _ _ _ (localeCompare_le_iff.mp h1) (localeCompare_le_iff.mp h2))

theorem localeCompare_le_total (a b : String) :
    localeCompare a b ≤ 0 ∨ localeCompare b a ≤ 0 := by
  rcases lexCompare_total (collationKey a) (collationKey b) with h | h
  · exact Or.inl (localeCompare_le_iff.mpr h)
  · exact Or.inr (localeCompare_le_iff.mpr h)

theorem primaryWeight_pos (c : Char) : 0 < primaryWeight c := by
  unfold primaryWeight
  split <;> omega

theorem pos_append_zero_inj : ∀ {ps : List Nat} {pt cs ct : List Nat},
    (∀ x ∈ ps, 0 < x) → (∀ x ∈ pt, 0 < x) →
    ps ++ 0 :: cs = pt ++ 0 :: ct → ps = pt ∧ cs = ct := by
  intro ps
  induction ps with
  | nil =>
    intro pt cs ct hp hq h
    cases pt with
    | nil => simpa using h
    | cons q pt =>
      simp only [List.nil_append, List.cons_append, List.cons.injEq] at h
      have hq0 : 0 < q := hq q (by simp)
      omega
  | cons p ps ih =>
    intro pt cs ct hp hq h
    cases pt with
    | nil =>
      simp only [List.cons_append, List.nil_append, List.cons.injEq] at h
      have hp0 : 0 < p := hp p (by simp)
      omega
    | cons q pt =>
      simp only [List.cons_append, List.cons.injEq] at h
      obtain ⟨hpq, htail⟩ := h
      have hrec := ih (fun x hx => hp x (List.mem_cons_of_mem _ hx))
        (fun x hx => hq x (List.mem_cons_of_mem _ hx)) htail
      exact ⟨by rw [hpq, hrec.1], hrec.2⟩

theorem char_eq_of_weights {c d : Char} (h1 : primaryWeight c = primaryWeight d)
    (h2 : caseWeight c = caseWeight d) : c = d := by
  unfold primaryWeight at h1
  unfold caseWeight at h2
  have hnat : c.toNat = d.toNat := by
    by_cases hc : 65 ≤ c.toNat ∧ c.toNat ≤ 90 <;>
      by_cases hd : 65 ≤ d.toNat ∧ d.toNat ≤ 90
    · rw [if_pos hc, if_pos hd] at h1
      omega
    · rw [if_pos hc, if_neg hd] at h2
      omega
    · rw [if_neg hc, if_pos hd] at h2
      omega
    · rw [if_neg hc, if_neg hd] at h1
      omega
  have := congrArg Char.ofNat hnat
  rwa [Char.ofNat_toNat, Char.ofNat_toNat] at this

theorem map_weights_inj : ∀ (xs ys : List Char),
    xs.map primaryWeight = ys.map primaryWeight →
    xs.map caseWeight = ys.map caseWeight → xs = ys := by
  intro xs
  induction xs with
  | nil =>
    intro ys h1 _
    cases ys with
    | nil => rfl
    | cons y ys => simp at h1
  | cons x xs ih =>
    intro ys h1 h2
    cases ys with
    | nil => simp at h1
    | cons y ys =>
      simp only [List.map_cons, List.cons.injEq] at h1 h2
      rw [char_eq_of_weights h1.1 h2.1, ih ys h1.2 h2.2]

theorem collationKey_inj {s t : String} (h : collationKey s = collationKey t) : s = t := by
  unfold collationKey at h
  have hp : ∀ x ∈ s.data.map primaryWeight, 0 < x := by
    intro x hx
    obtain ⟨c, -, rfl⟩ := List.mem_map.mp hx
    exact primaryWeight_pos c
  have hq : ∀ x ∈ t.data.map primaryWeight, 0 < x := by
    intro x hx
    obtain ⟨c, -, rfl⟩ := List.mem_map.mp hx
    exact primaryWeight_pos c
  obtain ⟨h1, h2⟩ := pos_append_zero_inj hp hq h
  exact String.ext (map_weights_inj s.data t.data h1 h2)

theorem localeCompare_antisymm {a b : String} (h1 : localeCompare a b ≤ 0)
    (h2 : localeCompare b a ≤ 0) : a = b :=
  collationKey_inj
    (lexCompare_antisymm _ _ (localeCompare_le_iff.mp h1) (localeCompare_le_iff.mp h2))

theorem jsSort_perm (cmp : α → α → Int) (l : List α) : (jsSort cmp l).Perm l :=
  List.perm_insertionSort _ l

theorem jsSort_pairwise (cmp : α → α → Int)
    (htrans : ∀ a b c, cmp a b ≤ 0 → cmp b c ≤ 0 → cmp a c ≤ 0)
    (htotal : ∀ a b, cmp a b ≤ 0 ∨ cmp b a ≤ 0) (l : List α) :
    (jsSort cmp l).Pairwise fun a b => cmp a b ≤ 0 := by
  haveI : IsTotal α fun a b => cmp a b ≤ 0 := ⟨htotal⟩
  haveI : IsTrans α fun a b => cmp a b ≤ 0 := ⟨fun a b c => htrans a b c⟩
  exact List.sorted_insertionSort _ l

theorem jsSort_of_pairwise {cmp : α → α → Int} {l : List α}
    (h : l.Pairwise fun a b => cmp a b ≤ 0) : jsSort cmp l = l :=
  List.Sorted.insertionSort_eq h

theorem orderIndex_eq_some {so : List String} {k : String} {i : Nat}
    (h : orderIndex so k = some i) : so[i]? = some k := by
  unfold orderIndex at h
  cases hf : so.enum.reverse.find? (fun p => p.2 == k) with
  | none =>
    rw [hf] at h
    simp at h
  | some p =>
    rw [hf] at h
    simp at h
    have hpk : p.2 = k := by
      have hfs := List.find?_some hf
      exact eq_of_beq hfs
    have hm : p ∈ so.enum := List.mem_reverse.mp (List.mem_of_find?_eq_some hf)
    have hg : so[p.1]? = some p.2 := List.mem_enum_iff_getElem?.mp hm
    rw [← h, hg, hpk]

theorem orderIndex_eq_none_iff {so : List String} {k : String} :
    orderIndex so k = none ↔ k ∉ so := by
  unfold orderIndex
  constructor
  · intro h hk
    cases hf : so.enum.reverse.find? (fun p => p.2 == k) with
    | some p =>
      rw [hf] at h
      simp at h
    | none =>
      rw [List.find?_eq_none] at hf
      obtain ⟨i, hi⟩ := List.mem_iff_getElem?.mp hk
      have hmem : (i, k) ∈ so.enum := List.mk_mem_enum_iff_getElem?.mpr hi
      have := hf (i, k) (List.mem_reverse.mpr hmem)
      simp at this
  · intro hk
    cases hf : so.enum.reverse.find? (fun p => p.2 == k) with
    | none => simp
    | some p =>
      exfalso
      have hfs := List.find?_some hf
      have hpk : p.2 = k := eq_of_beq hfs
      have hm : p ∈ so.enum := List.mem_reverse.mp (List.mem_of_find?_eq_some hf)
      have hg : so[p.1]? = some p.2 := List.mem_enum_iff_getElem?.mp hm
      exact hk (hpk ▸ List.getElem?_mem hg)

theorem orderIndex_isSome_of_mem {so : List String} {k : String} (hk : k ∈ so) :
    ∃ i, orderIndex so k = some i := by
  cases h : orderIndex so k with
  | none => exact absurd (orderIndex_eq_none_iff.mp h) (not_not_intro hk)
  | some i => exact ⟨i, rfl⟩

theorem orderIndex_getElem {so : List String} (hnd : so.Nodup) {i : Nat}
    (hi : i < so.length) : orderIndex so so[i] = some i := by
  obtain ⟨j, hj⟩ := orderIndex_isSome_of_mem (List.getElem_mem hi)
  have hg := orderIndex_eq_some hj
  obtain ⟨hjlt, hjv⟩ := List.getElem?_eq_some_iff.mp hg
  have : j = i := by
    rw [List.Nodup.getElem_inj_iff hnd] at hjv
    exact hjv
  rw [hj, this]

theorem customCompare_le_trans (so : List String) {a b c : String}
    (h1 : customCompare so a b ≤ 0) (h2 : customCompare so b c ≤ 0) :
    customCompare so a c ≤ 0 := by
  rcases ha : orderIndex so a with _ | ai <;> rcases hb : orderIndex so b with _ | bi <;>
    rcases hc : orderIndex so c with _ | ci <;>
    simp only [customCompare, ha, hb, hc] at h1 h2 ⊢ <;>
    first
      | omega
      | exact localeCompare_le_trans h1 h2

theorem customCompare_le_total (so : List String) (a b : String) :
    customCompare so a b ≤ 0 ∨ customCompare so b a ≤ 0 := by
  rcases ha : orderIndex so a with _ | ai <;> rcases hb : orderIndex so b with _ | bi <;>
    simp only [customCompare, ha, hb] <;>
    first
      | omega
      | exact localeCompare_le_total a b

theorem customCompare_antisymm (so : List String) {a b : String}
    (h1 : customCompare so a b ≤ 0) (h2 : customCompare so b a ≤ 0) : a = b := by
  rcases ha : orderIndex so a with _ | ai <;> rcases hb : orderIndex so b with _ | bi <;>
    simp only [customCompare, ha, hb] at h1 h2
  · exact localeCompare_antisymm h1 h2
  · exact absurd h1 (by decide)
  · exact absurd h2 (by decide)
  · have hii : ai = bi := by omega
    subst hii
    have hga := orderIndex_eq_some ha
    have hgb := orderIndex_eq_some hb
    rw [hga] at hgb
    exact (Option.some.injEq _ _).mp hgb

theorem customCompare_of_not_mem {so : List String} {a b : String}
    (ha : a ∉ so) (hb : b ∉ so) : customCompare so a b = localeCompare a b := by
  simp only [customCompare, orderIndex_eq_none_iff.mpr ha, orderIndex_eq_none_iff.mpr hb]

theorem sortKeysFromDepth_null (opts : SortOptions) (d : Nat) :
    sortKeysFromDepth .null opts d = .null := by
  rw [sortKeysFromDepth.eq_def]

theorem sortKeysFromDepth_bool (b : Bool) (opts : SortOptions) (d : Nat) :
    sortKeysFromDepth (.bool b) opts d = .bool b := by
  rw [sortKeysFromDepth.eq_def]

theorem sortKeysFromDepth_num (n : Int) (opts : SortOptions) (d : Nat) :
    sortKeysFromDepth (.num n) opts d = .num n := by
  rw [sortKeysFromDepth.eq_def]

theorem sortKeysFromDepth_str (s : String) (opts : SortOptions) (d : Nat) :
    sortKeysFromDepth (.str s) opts d = .str s := by
  rw [sortKeysFromDepth.eq_def]

theorem mem_jsSort {cmp : α → α → Int} {l : List α} {a : α} :
    a ∈ jsSort cmp l ↔ a ∈ l := by
  unfold jsSort
  exact List.mem_insertionSort _

theorem jsSort_map_fst (cmp : String → String → Int) (l : List (String × Json)) :
    (jsSort (fun a b => cmp a.1 b.1) l).map Prod.fst = jsSort cmp (l.map Prod.fst) := by
  unfold jsSort
  exact List.map_insertionSort _ _ Prod.fst l (fun a _ b _ => Iff.rfl)

theorem processEntries_none (sf d : Nat) (entries : List (String × Json)) :
    processEntries ⟨sf, none⟩ d entries =
      if sf ≤ d then jsSort keyCmp entries else entries := by
  unfold processEntries
  simp

theorem processEntries_default {opts : SortOptions} {d : Nat}
    (h1 : opts.sortFrom ≤ d) (h2 : ¬(d = 0 ∧ opts.sortOrder.getD [] ≠ []))
    (entries : List (String × Json)) :
    processEntries opts d entries = jsSort keyCmp entries := by
  unfold processEntries
  rw [if_pos h1, if_neg h2]

theorem processEntries_custom {so : List String} (hso : so ≠ [])
    (entries : List (String × Json)) :
    processEntries ⟨0, some so⟩ 0 entries = sortEntriesWithCustomOrder entries so := by
  unfold processEntries
  rw [if_pos (Nat.le_refl 0), if_pos ⟨rfl, by simpa using hso⟩]
  rfl

theorem keysOf_obj (fields : List (String × Json)) :
    keysOf (.obj fields) = fields.map Prod.fst := rfl

/-- Strong induction on the size of a JSON value. -/
theorem json_sizeOf_ind {P : Json → Prop}
    (h : ∀ v, (∀ w, sizeOf w < sizeOf v → P w) → P v) : ∀ v, P v := by
  have hn : ∀ (n : Nat) (v : Json), sizeOf v ≤ n → P v := by
    intro n
    induction n with
    | zero =>
      intro v hv
      exact h v (fun w hw => absurd (Nat.lt_of_lt_of_le hw hv) (Nat.not_lt_zero _))
    | succ n ih =>
      intro v hv
      exact h v (fun w hw => ih w (by omega))
  exact fun v => hn (sizeOf v) v (Nat.le_refl _)

theorem sizeOf_snd_lt_of_mem {entries : List (String × Json)} {kv : String × Json}
    (h : kv ∈ entries) : sizeOf kv.2 < sizeOf (Json.obj entries) := by
  have h1 := List.sizeOf_lt_of_mem h
  have h2 : sizeOf kv = 1 + sizeOf kv.1 + sizeOf kv.2 := by
    rcases kv with ⟨k, v⟩
    simp
  simp only [Json.obj.sizeOf_spec]
  omega

theorem sizeOf_elem_lt_of_mem {vs : List Json} {v : Json} (h : v ∈ vs) :
    sizeOf v < sizeOf (Json.arr vs) := by
  have h1 := List.sizeOf_lt_of_mem h
  simp only [Json.arr.sizeOf_spec]
  omega

/-- C4: pattern matching translates a glob to an anchored regular expression
in which a leading `**/` also matches the zero-segment case: the pattern
`**/*.json` matches both the path `bar.json` and the path `foo/bar.json`. -/
theorem matchesPattern_globstar_zero_segment :
    matchesPattern "bar.json" "**/*.json" = true ∧
    matchesPattern "foo/bar.json" "**/*.json" = true := by
  constructor
  · rfl
  · rfl

/-- C7 (code evaluated at the failing input): `stripComments` on an input
whose `/*` is never closed does not consume everything to the end of the
input; the final character survives, because the inner scan loop stops one
character short and the outer loop then processes that character normally. -/
theorem stripComments_unterminated_block_leak :
    stripComments "/*a" = "a" ∧ stripComments "/*abc" = "c" ∧
    stripComments "/*ab*/" = "" := by
  refine ⟨rfl, rfl, rfl⟩

/-- C8 (code evaluated at the failing input): a configuration whose `files`
entry carries a `sortOrder` array of strings is rejected by schema
validation (the file-override schema has no `sortOrder` field and forbids
additional properties), so `loadConfig` aborts with a validation error
instead of accepting the document. -/
theorem fileConfig_sortOrder_rejected :
    checkFileConfig (.obj [("sortOrder", .arr [.str "name"])]) = false ∧
    checkConfig (.obj [("files",
      .obj [("package.json", .obj [("sortOrder", .arr [.str "name"])])])]) = false ∧
    loadConfig (fun n =>
        if n = ".sortjsonrc.json" then
          .parsed (.obj [("files",
            .obj [("package.json", .obj [("sortOrder", .arr [.str "name"])])])])
        else .missing) = .error ".sortjsonrc.json" := by
  refine ⟨rfl, rfl, rfl⟩

/-- C3: the configuration candidates are tried in a fixed order; a missing or
unparseable candidate falls through to the next candidate (or, past the last
one, to the defaults), while a candidate that parses but fails shape
validation aborts with a validation error; any unrecognized top-level field
is a validation failure. -/
theorem loadConfig_fallthrough_and_validation :
    CONFIG_FILE_NAMES = [".sortjsonrc.json", ".sortjsonrc", "sortjson.config.json"] ∧
    (∀ (env : String → ReadResult) (fileName : String) (rest : List String),
      env fileName = .missing ∨ env fileName = .unparseable →
      loadConfigFrom env (fileName :: rest) = loadConfigFrom env rest) ∧
    (∀ (env : String → ReadResult) (fileName : String) (rest : List String) (j : Json),
      env fileName = .parsed j → checkConfig j = false →
      loadConfigFrom env (fileName :: rest) = .error fileName) ∧
    (∀ (env : String → ReadResult) (fileName : String) (rest : List String) (j : Json),
      env fileName = .parsed j → checkConfig j = true →
      loadConfigFrom env (fileName :: rest) = .ok (mergeWithDefaults j)) ∧
    (∀ env : String → ReadResult, loadConfigFrom env [] = .ok DEFAULT_CONFIG) ∧
    (∀ (fields : List (String × Json)) (k : String) (v : Json), (k, v) ∈ fields →
      k ∉ (["$schema", "include", "ignore", "sortFrom", "files"] : List String) →
      checkConfig (.obj fields) = false) := by
  refine ⟨rfl, ?_, ?_, ?_, fun env => rfl, ?_⟩
  · intro env fileName rest h
    rcases h with h | h <;> simp [loadConfigFrom, h]
  · intro env fileName rest j hj hc
    simp [loadConfigFrom, hj, hc]
  · intro env fileName rest j hj hc
    simp [loadConfigFrom, hj, hc]
  · intro fields k v hmem hk
    simp only [List.mem_cons, List.mem_singleton, not_or] at hk
    obtain ⟨h1, h2, h3, h4, h5, -⟩ := hk
    simp only [checkConfig]
    rw [List.all_eq_false]
    exact ⟨(k, v), hmem, by simp [h1, h2, h3, h4, h5]⟩

/-- C3 witness: with the first candidate missing and the second parsing to a
document with an unrecognized field, loading aborts with a validation error
naming the second candidate. -/
theorem loadConfig_fallthrough_and_validation_witness :
    loadConfigFrom
      (fun n => if n = ".sortjsonrc" then .parsed (.obj [("bogus", .null)]) else .missing)
      [".sortjsonrc.json", ".sortjsonrc"] = .error ".sortjsonrc" := by
  rw [loadConfig_fallthrough_and_validation.2.1 _ _ _ (Or.inl rfl)]
  exact loadConfig_fallthrough_and_validation.2.2.1 _ _ _ (.obj [("bogus", .null)]) rfl
    (loadConfig_fallthrough_and_validation.2.2.2.2.2 [("bogus", .null)] "bogus" .null
      (by simp) (by simp))

/-- C9: the fully recursive `sortKeys` and the depth-scoped `sortKeysFromDepth`
with `sortFrom = 0` and no custom order, started at the root, are the same
function. -/
theorem sortKeys_eq_sortKeysFromDepth :
    ∀ v : Json, sortKeys v = sortKeysFromDepth v ⟨0, none⟩ 0 := by
  have main : ∀ v : Json, ∀ d : Nat, sortKeys v = sortKeysFromDepth v ⟨0, none⟩ d := by
    refine json_sizeOf_ind ?_
    intro v ih d
    cases v with
    | null => rw [sortKeys, sortKeysFromDepth_null]
    | bool b => rw [sortKeys, sortKeysFromDepth_bool]
    | num n => rw [sortKeys, sortKeysFromDepth_num]
    | str s => rw [sortKeys, sortKeysFromDepth_str]
    | arr vs =>
      rw [sortKeys_arr, sortKeysFromDepth_arr]
      exact congrArg Json.arr
        (List.map_congr_left fun v hv => ih v (sizeOf_elem_lt_of_mem hv) d)
    | obj fs =>
      rw [sortKeys_obj, sortKeysFromDepth_obj, processEntries_none,
        if_pos (Nat.zero_le d)]
      refine congrArg Json.obj (List.map_congr_left fun kv hkv => ?_)
      have hlt : sizeOf kv.2 < sizeOf (Json.obj fs) :=
        sizeOf_snd_lt_of_mem (mem_jsSort.mp hkv)
      rw [ih kv.2 hlt (d + 1)]
  exact fun v => main v 0

/-- C10: `sortKeysFromDepth` discards `sortOrder` on every recursive descent:
array elements recurse at the same depth and object values at depth + 1, both
with no `sortOrder`; consequently a depth-0 mapping inside a root array is
sorted by the default comparator even when a custom order is supplied. -/
theorem sortOrder_discarded_on_descent :
    (∀ (vs : List Json) (opts : SortOptions) (d : Nat),
      sortKeysFromDepth (.arr vs) opts d =
        .arr (vs.map fun v => sortKeysFromDepth v ⟨opts.sortFrom, none⟩ d)) ∧
    (∀ (entries : List (String × Json)) (opts : SortOptions) (d : Nat),
      sortKeysFromDepth (.obj entries) opts d =
        .obj ((processEntries opts d entries).map fun kv =>
          (kv.1, sortKeysFromDepth kv.2 ⟨opts.sortFrom, none⟩ (d + 1)))) ∧
    sortKeysFromDepth (.arr [.obj [("b", .num 1), ("a", .num 2)]]) ⟨0, some ["b"]⟩ 0 =
      .arr [.obj [("a", .num 2), ("b", .num 1)]] := by
  refine ⟨sortKeysFromDepth_arr, sortKeysFromDepth_obj, ?_⟩
  rw [sortKeysFromDepth_arr]
  simp only [List.map_cons, List.map_nil]
  rw [sortKeysFromDepth_obj]
  rw [show processEntries ⟨0, none⟩ 0 [("b", Json.num 1), ("a", Json.num 2)] =
    [("a", Json.num 2), ("b", Json.num 1)] from rfl]
  simp only [List.map_cons, List.map_nil]
  rw [sortKeysFromDepth_num, sortKeysFromDepth_num]

/-- C1 counterexample: the code sorts keys with the localeCompare collation,
not by ordinal comparison: at depth 0 the mapping with keys "a" and "B" keeps
key order ["a", "B"] (lowercase first under the collation), while ordinal
(code-point) comparison puts "B" (code 66) before "a" (code 97), so the
claimed ordinal order ["B", "a"] differs from the produced order. -/
theorem sortKeysFromDepth_not_ordinal :
    keysOf (sortKeysFromDepth (.obj [("a", .num 1), ("B", .num 2)]) ⟨0, none⟩ 0) =
      ["a", "B"] ∧
    jsSort ordCompare ["a", "B"] = ["B", "a"] ∧
    (["a", "B"] : List String) ≠ ["B", "a"] := by
  refine ⟨?_, rfl, by decide⟩
  rw [sortKeysFromDepth_obj]
  rw [show processEntries ⟨0, none⟩ 0 [("a", Json.num 1), ("B", Json.num 2)] =
    [("a", Json.num 1), ("B", Json.num 2)] from rfl]
  rfl

/-- C1 (amended): at any depth at or beyond sortFrom, outside the depth-0
custom-order case, `sortKeysFromDepth` orders the mapping keys by the
`localeCompare` collation (the locale-aware host comparator, not ordinal
comparison): the output keys are a permutation of the input keys arranged
nondecreasingly under `localeCompare`; and the custom-order comparator falls
back to exactly `localeCompare` on two keys that both do not appear in
`sortOrder`. -/
theorem sortKeysFromDepth_locale_order :
    (∀ (entries : List (String × Json)) (opts : SortOptions) (d : Nat),
      opts.sortFrom ≤ d → ¬(d = 0 ∧ opts.sortOrder.getD [] ≠ []) →
      (keysOf (sortKeysFromDepth (.obj entries) opts d)).Perm (entries.map Prod.fst) ∧
      (keysOf (sortKeysFromDepth (.obj entries) opts d)).Pairwise
        fun a b => localeCompare a b ≤ 0) ∧
    (∀ (so : List String) (a b : String), a ∉ so → b ∉ so →
      customCompare so a b = localeCompare a b) := by
  constructor
  · intro entries opts d h1 h2
    rw [sortKeysFromDepth_obj, keysOf_obj, processEntries_default h1 h2, List.map_map]
    have hfst : (Prod.fst ∘ fun kv : String × Json =>
        (kv.1, sortKeysFromDepth kv.2 ⟨opts.sortFrom, none⟩ (d + 1))) = Prod.fst := rfl
    rw [hfst]
    constructor
    · exact (jsSort_perm keyCmp entries).map Prod.fst
    · have hp := jsSort_pairwise keyCmp
        (fun a b c hab hbc => localeCompare_le_trans hab hbc)
        (fun a b => localeCompare_le_total a.1 b.1) entries
      exact hp.map Prod.fst fun a b hab => hab
  · intro so a b ha hb
    exact customCompare_of_not_mem ha hb

/-- C1 witness: the amended statement applied to a concrete mapping and to a
concrete pair of keys outside a concrete custom order. -/
theorem sortKeysFromDepth_locale_order_witness :
    ((keysOf (sortKeysFromDepth (.obj [("b", .num 1), ("a", .num 2)]) ⟨0, none⟩ 0)).Perm
        ([("b", Json.num 1), ("a", Json.num 2)].map Prod.fst) ∧
      (keysOf (sortKeysFromDepth (.obj [("b", .num 1), ("a", .num 2)]) ⟨0, none⟩ 0)).Pairwise
        fun a b => localeCompare a b ≤ 0) ∧
    customCompare ["name"] "alpha" "beta" = localeCompare "alpha" "beta" :=
  ⟨sortKeysFromDepth_locale_order.1 [("b", .num 1), ("a", .num 2)] ⟨0, none⟩ 0
      (by decide) (by decide),
    sortKeysFromDepth_locale_order.2 ["name"] "alpha" "beta" (by decide) (by decide)⟩

theorem processEntries_custom_general {opts : SortOptions} {d : Nat}
    (h1 : opts.sortFrom ≤ d) (h2 : d = 0 ∧ opts.sortOrder.getD [] ≠ [])
    (entries : List (String × Json)) :
    processEntries opts d entries =
      sortEntriesWithCustomOrder entries (opts.sortOrder.getD []) := by
  unfold processEntries
  rw [if_pos h1, if_pos h2]

theorem processEntries_of_lt {opts : SortOptions} {d : Nat}
    (h : ¬ opts.sortFrom ≤ d) (entries : List (String × Json)) :
    processEntries opts d entries = entries := by
  unfold processEntries
  rw [if_neg h]

theorem processEntries_idem_mapped (opts : SortOptions) (d : Nat)
    (entries : List (String × Json)) (g : String × Json → String × Json)
    (hg : ∀ kv, (g kv).1 = kv.1) :
    processEntries opts d ((processEntries opts d entries).map g) =
      (processEntries opts d entries).map g := by
  by_cases h1 : opts.sortFrom ≤ d
  · by_cases h2 : d = 0 ∧ opts.sortOrder.getD [] ≠ []
    · rw [processEntries_custom_general h1 h2 entries,
        processEntries_custom_general h1 h2]
      unfold sortEntriesWithCustomOrder
      apply jsSort_of_pairwise
      have hp := jsSort_pairwise
        (fun a b : String × Json => customCompare (opts.sortOrder.getD []) a.1 b.1)
        (fun a b c hab hbc => customCompare_le_trans _ hab hbc)
        (fun a b => customCompare_le_total _ a.1 b.1) entries
      refine hp.map g fun a b hab => ?_
      show customCompare (opts.sortOrder.getD []) (g a).1 (g b).1 ≤ 0
      rw [hg a, hg b]
      exact hab
    · rw [processEntries_default h1 h2 entries, processEntries_default h1 h2]
      apply jsSort_of_pairwise
      have hp := jsSort_pairwise keyCmp
        (fun a b c hab hbc => localeCompare_le_trans hab hbc)
        (fun a b => localeCompare_le_total a.1 b.1) entries
      refine hp.map g fun a b hab => ?_
      show keyCmp (g a) (g b) ≤ 0
      unfold keyCmp
      rw [hg a, hg b]
      exact hab
  · rw [processEntries_of_lt h1 entries, processEntries_of_lt h1]

theorem sortKeysFromDepth_arr' (vs : List Json) (sf : Nat)
    (so : Option (List String)) (d : Nat) :
    sortKeysFromDepth (.arr vs) ⟨sf, so⟩ d =
      .arr (vs.map fun v => sortKeysFromDepth v ⟨sf, none⟩ d) := by
  rw [sortKeysFromDepth_arr]

theorem sortKeysFromDepth_obj' (entries : List (String × Json)) (sf : Nat)
    (so : Option (List String)) (d : Nat) :
    sortKeysFromDepth (.obj entries) ⟨sf, so⟩ d =
      .obj ((processEntries ⟨sf, so⟩ d entries).map fun kv =>
        (kv.1, sortKeysFromDepth kv.2 ⟨sf, none⟩ (d + 1))) := by
  rw [sortKeysFromDepth_obj]

theorem sortKeysFromDepth_idem_aux :
    ∀ v : Json, ∀ sf d : Nat,
      sortKeysFromDepth (sortKeysFromDepth v ⟨sf, none⟩ d) ⟨sf, none⟩ d =
        sortKeysFromDepth v ⟨sf, none⟩ d := by
  refine json_sizeOf_ind ?_
  intro v ih sf d
  cases v with
  | null => rw [sortKeysFromDepth_null, sortKeysFromDepth_null]
  | bool b => rw [sortKeysFromDepth_bool, sortKeysFromDepth_bool]
  | num n => rw [sortKeysFromDepth_num, sortKeysFromDepth_num]
  | str s => rw [sortKeysFromDepth_str, sortKeysFromDepth_str]
  | arr vs =>
    rw [sortKeysFromDepth_arr, sortKeysFromDepth_arr, List.map_map]
    refine congrArg Json.arr (List.map_congr_left fun v hv => ?_)
    simp only [Function.comp_apply]
    exact ih v (sizeOf_elem_lt_of_mem hv) sf d
  | obj entries =>
    rw [sortKeysFromDepth_obj', sortKeysFromDepth_obj',
      processEntries_idem_mapped ⟨sf, none⟩ d entries
        (fun kv => (kv.1, sortKeysFromDepth kv.2 ⟨sf, none⟩ (d + 1))) (fun kv => rfl),
      List.map_map]
    refine congrArg Json.obj (List.map_congr_left fun kv hkv => ?_)
    have hm : kv ∈ entries := mem_of_mem_processEntries hkv
    simp only [Function.comp_apply]
    rw [ih kv.2 (sizeOf_snd_lt_of_mem hm) sf (d + 1)]

/-- C5: `sortKeysFromDepth` is idempotent: for every JSON value and every
choice of sort options (any `sortFrom` depth, with or without a custom
order), applying it to its own output returns the output unchanged. -/
theorem sortKeysFromDepth_idempotent (v : Json) (opts : SortOptions) :
    sortKeysFromDepth (sortKeysFromDepth v opts 0) opts 0 =
      sortKeysFromDepth v opts 0 := by
  obtain ⟨sf, so⟩ := opts
  cases v with
  | null => rw [sortKeysFromDepth_null, sortKeysFromDepth_null]
  | bool b => rw [sortKeysFromDepth_bool, sortKeysFromDepth_bool]
  | num n => rw [sortKeysFromDepth_num, sortKeysFromDepth_num]
  | str s => rw [sortKeysFromDepth_str, sortKeysFromDepth_str]
  | arr vs =>
    rw [sortKeysFromDepth_arr, sortKeysFromDepth_arr, List.map_map]
    refine congrArg Json.arr (List.map_congr_left fun v hv => ?_)
    simp only [Function.comp_apply]
    exact sortKeysFromDepth_idem_aux v sf 0
  | obj entries =>
    rw [sortKeysFromDepth_obj', sortKeysFromDepth_obj',
      processEntries_idem_mapped ⟨sf, so⟩ 0 entries
        (fun kv => (kv.1, sortKeysFromDepth kv.2 ⟨sf, none⟩ (0 + 1))) (fun kv => rfl),
      List.map_map]
    refine congrArg Json.obj (List.map_congr_left fun kv hkv => ?_)
    simp only [Function.comp_apply]
    rw [sortKeysFromDepth_idem_aux kv.2 sf (0 + 1)]

theorem customCompare_mem_not_mem {so : List String} {a b : String}
    (ha : a ∈ so) (hb : b ∉ so) : customCompare so a b = -1 := by
  obtain ⟨i, hi⟩ := orderIndex_isSome_of_mem ha
  simp only [customCompare, hi, orderIndex_eq_none_iff.mpr hb]

theorem pairwise_customCompare_self {so : List String} (hnd : so.Nodup) :
    so.Pairwise fun a b => customCompare so a b ≤ 0 := by
  rw [List.pairwise_iff_getElem]
  intro i j hi hj hij
  have ha := orderIndex_getElem hnd hi
  have hb := orderIndex_getElem hnd hj
  simp only [customCompare, ha, hb]
  omega

/-- C2: when at least one `files` pattern matches a path, `getFileConfig`
selects exactly one winner: a matching pattern whose specificity score (+1000
for a pattern with no `*`, +10 per `/`, -5 per `**`, +1 per single-segment
`*`, plus the pattern length) is maximal among all matching patterns; in
particular the literal pattern `package.json` (score 1012) beats `*.json`
(score 7) for the path `package.json`. -/
theorem getFileConfig_picks_most_specific :
    (∀ (filePath : String) (config : Config),
      scoredMatches filePath config ≠ [] →
      ∃ best : ScoredMatch,
        (getFileConfig filePath config).matchedPattern = some best.pattern ∧
        (best.pattern, best.config) ∈ config.files ∧
        matchesPattern filePath best.pattern = true ∧
        best.score = getPatternSpecificity best.pattern ∧
        ∀ pc ∈ config.files, matchesPattern filePath pc.1 = true →
          getPatternSpecificity pc.1 ≤ best.score) ∧
    getPatternSpecificity "package.json" = 1012 ∧
    getPatternSpecificity "*.json" = 7 ∧
    (getFileConfig "package.json"
      ⟨[], [], 1, [("*.json", ⟨some 2, none, none⟩),
        ("package.json", ⟨some 3, none, none⟩)]⟩).matchedPattern =
      some "package.json" := by
  refine ⟨?_, rfl, rfl, rfl⟩
  intro filePath config hne
  cases hm : jsSort (fun a b : ScoredMatch => b.score - a.score)
      (scoredMatches filePath config) with
  | nil =>
    exfalso
    have hp := jsSort_perm (fun a b : ScoredMatch => b.score - a.score)
      (scoredMatches filePath config)
    rw [hm] at hp
    exact hne hp.nil_eq.symm
  | cons best rest =>
    have hgf : (getFileConfig filePath config).matchedPattern = some best.pattern := by
      unfold getFileConfig
      rw [hm]
    have hbm : best ∈ scoredMatches filePath config := by
      have : best ∈ jsSort (fun a b : ScoredMatch => b.score - a.score)
          (scoredMatches filePath config) := by
        rw [hm]
        exact List.mem_cons_self _ _
      exact mem_jsSort.mp this
    obtain ⟨pc, hpc, hpcb⟩ := List.mem_map.mp hbm
    have hpc2 := List.mem_filter.mp hpc
    have hpat : best.pattern = pc.1 := by rw [← hpcb]
    have hcfg : best.config = pc.2 := by rw [← hpcb]
    have hscore : best.score = getPatternSpecificity pc.1 := by rw [← hpcb]
    refine ⟨best, hgf, ?_, ?_, ?_, ?_⟩
    · rw [hpat, hcfg]
      exact hpc2.1
    · rw [hpat]
      exact hpc2.2
    · rw [hscore, hpat]
    · intro qc hqc hqm
      have hqs : (⟨qc.1, qc.2, getPatternSpecificity qc.1⟩ : ScoredMatch) ∈
          scoredMatches filePath config := by
        refine List.mem_map.mpr ⟨qc, List.mem_filter.mpr ⟨hqc, hqm⟩, rfl⟩
      have hqj : (⟨qc.1, qc.2, getPatternSpecificity qc.1⟩ : ScoredMatch) ∈
          best :: rest := by
        rw [← hm]
        exact mem_jsSort.mpr hqs
      rcases List.mem_cons.mp hqj with heq | hin
      · have : getPatternSpecificity qc.1 =
            (⟨qc.1, qc.2, getPatternSpecificity qc.1⟩ : ScoredMatch).score := rfl
        rw [this, heq]
      · have hp := jsSort_pairwise (fun a b : ScoredMatch => b.score - a.score)
          (fun a b c hab hbc => by
            have g1 : b.score - a.score ≤ 0 := hab
            have g2 : c.score - b.score ≤ 0 := hbc
            show c.score - a.score ≤ 0
            omega)
          (fun a b => by
            show b.score - a.score ≤ 0 ∨ a.score - b.score ≤ 0
            omega)
          (scoredMatches filePath config)
        rw [hm] at hp
        have := (List.pairwise_cons.mp hp).1 _ hin
        simp only at this
        omega

/-- C2 witness: the specificity statement applied to a configuration whose
`files` entries are `*.json` and `package.json`, for the path
`package.json`. -/
theorem getFileConfig_picks_most_specific_witness :
    ∃ best : ScoredMatch,
      (getFileConfig "package.json"
        ⟨[], [], 1, [("*.json", ⟨some 2, none, none⟩),
          ("package.json", ⟨some 3, none, none⟩)]⟩).matchedPattern = some best.pattern ∧
      (best.pattern, best.config) ∈ ([("*.json", (⟨some 2, none, none⟩ : FileConfig)),
          ("package.json", ⟨some 3, none, none⟩)] : List (String × FileConfig)) ∧
      matchesPattern "package.json" best.pattern = true ∧
      best.score = getPatternSpecificity best.pattern ∧
      ∀ pc ∈ ([("*.json", (⟨some 2, none, none⟩ : FileConfig)),
          ("package.json", ⟨some 3, none, none⟩)] : List (String × FileConfig)),
        matchesPattern "package.json" pc.1 = true →
          getPatternSpecificity pc.1 ≤ best.score :=
  getFileConfig_picks_most_specific.1 "package.json"
    ⟨[], [], 1, [("*.json", ⟨some 2, none, none⟩),
      ("package.json", ⟨some 3, none, none⟩)]⟩ (by decide)

/-- C6: at depth 0 with `sortFrom` 0 and a non-empty custom order, over a
mapping with duplicate-free keys and a duplicate-free `sortOrder`, the output
key order is exactly: every `sortOrder` key that occurs in the mapping first,
in declared order, followed by the remaining keys sorted by the default
comparator. -/
theorem sortKeysFromDepth_custom_order (entries : List (String × Json))
    (so : List String) (hso : so ≠ []) (hnd : (entries.map Prod.fst).Nodup)
    (hnds : so.Nodup) :
    keysOf (sortKeysFromDepth (.obj entries) ⟨0, some so⟩ 0) =
      (so.filter fun k => k ∈ entries.map Prod.fst) ++
        jsSort localeCompare ((entries.map Prod.fst).filter fun k => k ∉ so) := by
  have hkeys : keysOf (sortKeysFromDepth (.obj entries) ⟨0, some so⟩ 0) =
      jsSort (customCompare so) (entries.map Prod.fst) := by
    rw [sortKeysFromDepth_obj', keysOf_obj, List.map_map]
    have hfst : (Prod.fst ∘ fun kv : String × Json =>
        (kv.1, sortKeysFromDepth kv.2 ⟨0, none⟩ (0 + 1))) = Prod.fst := rfl
    rw [hfst, processEntries_custom hso]
    unfold sortEntriesWithCustomOrder
    exact jsSort_map_fst (customCompare so) entries
  rw [hkeys]
  haveI : IsAntisymm String fun a b => customCompare so a b ≤ 0 :=
    ⟨fun a b h1 h2 => customCompare_antisymm so h1 h2⟩
  have hperm : (jsSort (customCompare so) (entries.map Prod.fst)).Perm
      ((so.filter fun k => k ∈ entries.map Prod.fst) ++
        jsSort localeCompare ((entries.map Prod.fst).filter fun k => k ∉ so)) := by
    have h1 : (jsSort (customCompare so) (entries.map Prod.fst)).Perm
        (entries.map Prod.fst) := jsSort_perm _ _
    have h2 : (so.filter fun k => k ∈ entries.map Prod.fst).Perm
        ((entries.map Prod.fst).filter fun k => k ∈ so) := by
      rw [List.perm_ext_iff_of_nodup (hnds.filter _) (hnd.filter _)]
      intro k
      simp only [List.mem_filter, decide_eq_true_eq]
      exact ⟨fun hx => ⟨hx.2, hx.1⟩, fun hx => ⟨hx.2, hx.1⟩⟩
    have h3 : (jsSort localeCompare ((entries.map Prod.fst).filter fun k => k ∉ so)).Perm
        ((entries.map Prod.fst).filter fun k => k ∉ so) := jsSort_perm _ _
    have h4 : (((entries.map Prod.fst).filter fun k => k ∈ so) ++
        ((entries.map Prod.fst).filter fun k => k ∉ so)).Perm (entries.map Prod.fst) := by
      have := List.filter_append_perm (fun k => decide (k ∈ so)) (entries.map Prod.fst)
      simpa [decide_not] using this
    exact h1.trans (h4.symm.trans (List.Perm.append h2.symm h3.symm))
  have hs1 : List.Sorted (fun a b => customCompare so a b ≤ 0)
      (jsSort (customCompare so) (entries.map Prod.fst)) :=
    jsSort_pairwise (customCompare so)
      (fun a b c hab hbc => customCompare_le_trans so hab hbc)
      (fun a b => customCompare_le_total so a b) (entries.map Prod.fst)
  have hs2 : List.Sorted (fun a b => customCompare so a b ≤ 0)
      ((so.filter fun k => k ∈ entries.map Prod.fst) ++
        jsSort localeCompare ((entries.map Prod.fst).filter fun k => k ∉ so)) := by
    rw [List.Sorted, List.pairwise_append]
    refine ⟨?_, ?_, ?_⟩
    · exact (pairwise_customCompare_self hnds).sublist (List.filter_sublist so)
    · have hp := jsSort_pairwise localeCompare
        (fun a b c hab hbc => localeCompare_le_trans hab hbc)
        (fun a b => localeCompare_le_total a b)
        ((entries.map Prod.fst).filter fun k => k ∉ so)
      refine hp.imp_of_mem fun {a b} ha hb hab => ?_
      have hna : a ∉ so := by
        have := List.of_mem_filter (mem_jsSort.mp ha)
        simpa using this
      have hnb : b ∉ so := by
        have := List.of_mem_filter (mem_jsSort.mp hb)
        simpa using this
      rw [customCompare_of_not_mem hna hnb]
      exact hab
    · intro a ha b hb
      have hma : a ∈ so := (List.mem_filter.mp ha).1
      have hmb : b ∉ so := by
        have := List.of_mem_filter (mem_jsSort.mp hb)
        simpa using this
      rw [customCompare_mem_not_mem hma hmb]
      omega
  exact List.eq_of_perm_of_sorted hperm hs1 hs2

/-- C6 witness: the custom-order theorem applied to the mapping with keys
description, name, version, other and the order name, version, description
yields exactly the key order name, version, description, other. -/
theorem sortKeysFromDepth_custom_order_witness :
    keysOf (sortKeysFromDepth
      (.obj [("description", .num 1), ("name", .num 2),
        ("version", .num 3), ("other", .num 4)])
      ⟨0, some ["name", "version", "description"]⟩ 0) =
      ["name", "version", "description", "other"] := by
  rw [sortKeysFromDepth_custom_order _ _ (by decide) (by decide) (by decide)]
  rfl

end SortJson
